import Mathlib

/-!
Shallow embedding of `src/streamlit_bulk_replace.py` (a Streamlit bulk
rename/replace tool).  The filesystem inside the run's temporary directory is
modelled as a list of (path, node) entries in `rglob` enumeration order; path
segments are atomic strings (names extracted from a zip archive contain no
path separator).  File text is `some s` when the file decodes under UTF-8 and
`none` when `read_text` would raise (binary content).  OS failures while
renaming or writing one item are modelled by boolean oracles indexed by the
item's path.
-/

namespace BulkReplace

/-- A path below the run's temporary directory, as a list of segments.
The extracted reference copy lives under segment `"extracted"`, the mutable
working copy under `"work"`. -/
abbrev Path := List String

/-- A filesystem node: a regular file (with its UTF-8 decoded text, or `none`
when decoding fails) or a directory. -/
inductive Node where
  | file (text : Option String)
  | dir
deriving DecidableEq, Repr

/-- The filesystem: entries (full path below the temp dir, node) in
enumeration order.  Every directory is present as its own entry, as `zipfile`
extraction and `copytree` create them. -/
abbrev FS := List (Path × Node)

/-- Left-to-right non-overlapping replacement, with a fuel argument (one unit
per consumed character) making the recursion structural: at each position, if
`o` is a prefix, emit `n` and skip `o.length` characters, else keep one
character and advance. -/
def replaceFuel (o n : List Char) : Nat → List Char → List Char
  | 0, l => l
  | _ + 1, [] => []
  | fuel + 1, c :: rest =>
    if o.isPrefixOf (c :: rest) then
      n ++ replaceFuel o n fuel (rest.drop (o.length - 1))
    else
      c :: replaceFuel o n fuel rest

/-- Python `s.replace(old, new)` on the character list (each step consumes at
least one character, so `l.length` fuel always suffices; faithful for
non-empty `o`, which line 41 of the source guarantees before any replacement
happens). -/
def replaceAllL (o n : List Char) (l : List Char) : List Char :=
  replaceFuel o n l.length l

/-- Python `s.replace(old, new)` (line 75, 110, 152, 171, 194). -/
def strReplace (old new s : String) : String :=
  String.mk (replaceAllL old.toList new.toList s.toList)

/-- Contiguous-sublist test on character lists. -/
def isSubL (o : List Char) : List Char → Bool
  | [] => o.isEmpty
  | c :: rest => o.isPrefixOf (c :: rest) || isSubL o rest

/-- Python `old in s` (contiguous substring test). -/
def substrB (o s : String) : Bool :=
  isSubL o.toList s.toList

/-- `p.name`: the final path segment. -/
def name (p : Path) : String := p.getLastD ""

/-- `pathlib.PurePath.suffix`: the extension of the final segment, i.e. the
text from the last dot onwards provided that dot is neither the first nor the
last character; otherwise the empty string. -/
def pySuffix (s : String) : String :=
  let l := s.toList
  match ((List.range l.length).filter (fun i => l[i]? == some '.')).getLast? with
  | some i => if 0 < i ∧ i + 1 < l.length then String.mk (l.drop i) else ""
  | none => ""

/-- `len(str(p))` up to the constant length of the temp-dir prefix shared by
every path in one run: each segment contributes one separator plus its own
length, so comparisons between paths of a run coincide with Python's. -/
def pathStrLen (p : Path) : Nat := (p.map String.length).sum + p.length

/-- `Path.exists()`: some entry sits at exactly this path. -/
def pathExistsB (q : Path) (fs : FS) : Bool :=
  fs.any (fun e => e.1 == q)

/-- `os.rename(src, dst)` on a tree: every entry at or strictly below `src`
is re-rooted at `dst`; all other entries are untouched. -/
def renamePath (src dst : Path) (fs : FS) : FS :=
  fs.map (fun e => if src.isPrefixOf e.1 then (dst ++ e.1.drop src.length, e.2) else e)

/-- `Path.write_text`: overwrite the file entry at exactly `q`. -/
def writeFile (q : Path) (t : String) (fs : FS) : FS :=
  fs.map (fun e => if e.1 == q then (e.1, Node.file (some t)) else e)

/-- `q.mkdir(parents=True, exist_ok=True)`: append a directory entry for every
non-empty prefix of `q` not already present; existing entries are untouched. -/
def mkdirParents (q : Path) (fs : FS) : FS :=
  fs ++ (((List.range q.length).map (fun i => q.take (i + 1))).filter
    (fun pre => !pathExistsB pre fs)).map (fun pre => (pre, Node.dir))

/-- `root.rglob("*")`: every entry strictly below `root`, in enumeration
order. -/
def rglob (root : Path) (fs : FS) : FS :=
  fs.filter (fun e => root.isPrefixOf e.1 && !(e.1 == root))

/-- `shutil.copytree(src, dst)`: create `dst` and a copy of every entry below
`src`, re-rooted at `dst`. -/
def copytree (src dst : Path) (fs : FS) : FS :=
  fs ++ [(dst, Node.dir)] ++ (rglob src fs).map (fun e => (dst ++ e.1.drop src.length, e.2))

/-- `pathlib.PurePath.with_name` (line 75/77): raises `ValueError` when the
path has no final segment or when the new name is empty, `"."`, or contains a
separator. -/
def withName (p : Path) (n : String) : Except Unit Path :=
  if p = [] then .error ()
  else if n = "" ∨ n = "." ∨ n.toList.contains '/' then .error ()
  else .ok (p.dropLast ++ [n])

deriving instance DecidableEq for Except

/-- The scan's three candidate lists (lines 66–68): files with content
matches, file renames, folder renames.  Destination paths are stored as
computed at scan time by `with_name`. -/
structure ScanResult where
  contentCands : List Path
  fileCands : List (Path × Path)
  folderCands : List (Path × Path)
deriving DecidableEq, Repr

/-- The filename/foldername half of one scan iteration (lines 73–77): when
the base name contains `old`, record a rename candidate, the `with_name`
`ValueError` propagating as the error case. -/
def scanRenamePart (old new : String) (acc : ScanResult) (e : Path × Node) :
    Except Unit ScanResult :=
  if substrB old (name e.1) then
    match e.2 with
    | Node.file _ =>
      match withName e.1 (strReplace old new (name e.1)) with
      | .error u => .error u
      | .ok dst => .ok { acc with fileCands := acc.fileCands ++ [(e.1, dst)] }
    | Node.dir =>
      match withName e.1 (strReplace old new (name e.1)) with
      | .error u => .error u
      | .ok dst => .ok { acc with folderCands := acc.folderCands ++ [(e.1, dst)] }
  else .ok acc

/-- The content half of one scan iteration (lines 79–85): files with an
allowed suffix whose text decodes and contains `old`; a decode failure means
silently skipping the file, so this part never raises. -/
def scanContentPart (old : String) (sfx : List String) (acc : ScanResult)
    (e : Path × Node) : ScanResult :=
  match e.2 with
  | Node.file t =>
    if pySuffix (name e.1) ∈ sfx then
      match t with
      | none => acc
      | some txt =>
        if substrB old txt then
          { acc with contentCands := acc.contentCands ++ [e.1] }
        else acc
    else acc
  | Node.dir => acc

/-- One iteration of the candidate scan (lines 70–85), over one `rglob`
entry. -/
def scanStep (old new : String) (sfx : List String) (acc : ScanResult)
    (e : Path × Node) : Except Unit ScanResult :=
  match scanRenamePart old new acc e with
  | .error u => .error u
  | .ok acc1 => .ok (scanContentPart old sfx acc1 e)

/-- The scan loop: run `scanStep` over the entries in order, the first raised
`ValueError` aborting the whole loop. -/
def scanList (old new : String) (sfx : List String) :
    List (Path × Node) → ScanResult → Except Unit ScanResult
  | [], acc => .ok acc
  | e :: es, acc =>
    match scanStep old new sfx acc e with
    | .error u => .error u
    | .ok acc' => scanList old new sfx es acc'

/-- The candidate scan (lines 70–85) over the `rglob` entries of the
extracted tree. -/
def scan (old new : String) (sfx : List String) (entries : FS) :
    Except Unit ScanResult :=
  scanList old new sfx entries ⟨[], [], []⟩

/-- One line of the operation log: a structured rendering of the f-strings
appended to `log_lines` (lines 159–200).  `rel` is the path relative to the
tree root being reported. -/
inductive LogEntry where
  | renamedFile (rel : Path) (dstName : String)
  | skipFile (rel : Path) (dstName : String)
  | errorFile (rel : Path)
  | renamedFolder (rel : Path) (dstName : String)
  | skipFolder (rel : Path) (dstName : String)
  | errorFolder (rel : Path)
  | updated (rel : Path)
  | errorUpdate (rel : Path)
  | total (n : Nat)
deriving DecidableEq, Repr

/-- The relative path an operation-log line reports, when it reports one. -/
def LogEntry.relOf : LogEntry → Option Path
  | renamedFile r _ => some r
  | skipFile r _ => some r
  | errorFile r => some r
  | renamedFolder r _ => some r
  | skipFolder r _ => some r
  | errorFolder r => some r
  | updated r => some r
  | errorUpdate r => some r
  | total _ => none

/-- Whether a log line records a successful content update. -/
def LogEntry.isUpdated : LogEntry → Bool
  | updated _ => true
  | _ => false

/-- The apply-time destination of a file rename (line 153):
`work_dir.joinpath(rel.parent) / dst_name`. -/
def fileDst (old new : String) (src : Path) : Path :=
  (["work"] ++ (src.drop 1).dropLast) ++ [strReplace old new (name src)]

/-- The apply-time destination of a folder rename (line 173):
`src_work.parent / dst_name` with `src_work = work_dir.joinpath(rel)`. -/
def folderDst (old new : String) (src : Path) : Path :=
  (["work"] ++ src.drop 1).dropLast ++ [strReplace old new (name src)]

/-- One file rename (lines 150–164).  `err src = true` models the OS raising
on this item's rename after the parent `mkdir` succeeded; the `except` block
turns it into an `ERROR` log line. -/
def fileRenameStep (old new : String) (err : Path → Bool) (fs : FS)
    (src : Path) : FS × LogEntry :=
  let rel := src.drop 1
  let dstName := strReplace old new (name src)
  let dst := fileDst old new src
  let fs1 := mkdirParents dst.dropLast fs
  if pathExistsB dst fs1 then
    (fs1, LogEntry.skipFile rel dstName)
  else if err src then
    (fs1, LogEntry.errorFile rel)
  else
    (renamePath (["work"] ++ rel) dst fs1, LogEntry.renamedFile rel dstName)

/-- One folder rename (lines 169–181). -/
def folderRenameStep (old new : String) (err : Path → Bool) (fs : FS)
    (src : Path) : FS × LogEntry :=
  let rel := src.drop 1
  let dstName := strReplace old new (name src)
  let dst := folderDst old new src
  if pathExistsB dst fs then
    (fs, LogEntry.skipFolder rel dstName)
  else if err src then
    (fs, LogEntry.errorFolder rel)
  else
    (renamePath (["work"] ++ rel) dst fs, LogEntry.renamedFolder rel dstName)

/-- A rename loop (lines 150 and 169): run `step` on each candidate in order,
appending exactly one log line per item. -/
def renamePhase (step : FS → Path → FS × LogEntry) :
    List Path → FS → FS × List LogEntry
  | [], fs => (fs, [])
  | src :: rest, fs =>
    let r := step fs src
    let rr := renamePhase step rest r.1
    (rr.1, r.2 :: rr.2)

/-- Stable insertion, keeping the descending `pathStrLen` order and placing
the new element after existing elements of equal length. -/
def insertDesc (a : Path) : List Path → List Path
  | [] => [a]
  | b :: bs =>
    if pathStrLen a ≤ pathStrLen b then b :: insertDesc a bs else a :: b :: bs

/-- Python `sorted(paths, key=lambda x: -len(str(x)))` (lines 149, 168): the
stable sort by descending path-string length. -/
def sortDeepestFirst (l : List Path) : List Path :=
  l.foldl (fun acc p => insertDesc p acc) []

/-- Whether the content loop attempts an update for this entry (lines
187–192): a regular file with an allowed suffix whose text decodes and
contains `old`. -/
def contentAttempt (old : String) (sfx : List String) (e : Path × Node) : Bool :=
  match e.2 with
  | Node.file (some txt) => decide (pySuffix (name e.1) ∈ sfx) && substrB old txt
  | Node.file none => false
  | Node.dir => false

/-- One iteration of the content-replacement loop (lines 186–198).
`errW p = true` models `write_text` raising on that file. -/
def contentStep (old new : String) (sfx : List String) (errW : Path → Bool)
    (acc : FS × Nat × List LogEntry) (e : Path × Node) : FS × Nat × List LogEntry :=
  match e.2 with
  | Node.dir => acc
  | Node.file t =>
    if pySuffix (name e.1) ∈ sfx then
      match t with
      | none => acc
      | some txt =>
        if substrB old txt then
          if errW e.1 then
            (acc.1, acc.2.1, acc.2.2 ++ [LogEntry.errorUpdate (e.1.drop 1)])
          else
            (writeFile e.1 (strReplace old new txt) acc.1, acc.2.1 + 1,
              acc.2.2 ++ [LogEntry.updated (e.1.drop 1)])
        else
          acc
    else
      acc

/-- The content-replacement pass (lines 183–198): re-scan the working tree
after all renames and fold the update step over it.  Content writes never
change any path, so folding over the entry list taken at the start of the
pass agrees with the lazy `rglob` generator the loop iterates. -/
def contentPhase (old new : String) (sfx : List String) (errW : Path → Bool)
    (fs : FS) : FS × Nat × List LogEntry :=
  (rglob ["work"] fs).foldl (contentStep old new sfx errW) (fs, 0, [])

/-- Failure-injection oracles for the three mutating loops. -/
structure Oracles where
  errFile : Path → Bool
  errFolder : Path → Bool
  errWrite : Path → Bool

/-- The file-rename loop behind its checkbox (lines 148–164): sort the file
candidates deepest-first and rename each. -/
def filePhaseRun (old new : String) (errF : Path → Bool) (doF : Bool)
    (cands : ScanResult) (fs0 : FS) : FS × List LogEntry :=
  if doF then
    renamePhase (fileRenameStep old new errF)
      (sortDeepestFirst (cands.fileCands.map Prod.fst)) fs0
  else (fs0, [])

/-- The folder-rename loop behind its checkbox (lines 167–181). -/
def folderPhaseRun (old new : String) (errD : Path → Bool) (doD : Bool)
    (cands : ScanResult) (fs1 : FS) : FS × List LogEntry :=
  if doD then
    renamePhase (folderRenameStep old new errD)
      (sortDeepestFirst (cands.folderCands.map Prod.fst)) fs1
  else (fs1, [])

/-- The content-replacement pass behind its checkbox (lines 184–198). -/
def contentPhaseRun (old new : String) (sfx : List String) (errW : Path → Bool)
    (doC : Bool) (fs2 : FS) : FS × Nat × List LogEntry :=
  if doC then contentPhase old new sfx errW fs2 else (fs2, 0, [])

/-- The mutation executor after the gate and the `copytree` (lines 145–200):
file renames deepest-first, folder renames deepest-first, content rewrite,
and the final summary line. -/
def applyOps (old new : String) (sfx : List String) (doF doD doC : Bool)
    (orc : Oracles) (cands : ScanResult) (fs0 : FS) : FS × List LogEntry :=
  let r1 := filePhaseRun old new orc.errFile doF cands fs0
  let r2 := folderPhaseRun old new orc.errFolder doD cands r1.1
  let r3 := contentPhaseRun old new sfx orc.errWrite doC r2.1
  (r3.1, r1.2 ++ r2.2 ++ r3.2.2 ++ [LogEntry.total r3.2.1])

/-- The user-controlled inputs of one run. -/
structure Params where
  old : String
  new : String
  suffixes : List String
  doRenameFiles : Bool
  doRenameFolders : Bool
  doChangeContents : Bool
  confirmWord : String
  applyClicked : Bool

/-- The state left in the temp dir by one run, and the operation log. -/
structure RunResult where
  fs : FS
  log : List LogEntry
deriving DecidableEq, Repr

/-- One full run over an already-extracted tree: the empty-`old` stop (line
41), the scan (which, when `with_name` raises, aborts before any mutation),
the confirmation gate (lines 134–139: the button stays disabled unless the
typed word is exactly `"APPLY"`, and nothing below line 139 runs unless the
enabled button was clicked), the `copytree` to the working copy (line 143),
and the mutation executor. -/
def run (prm : Params) (orc : Oracles) (tmp : FS) : RunResult :=
  if prm.old = "" then ⟨tmp, []⟩
  else
    match scan prm.old prm.new prm.suffixes (rglob ["extracted"] tmp) with
    | .error _ => ⟨tmp, []⟩
    | .ok cands =>
      if prm.applyClicked = true ∧ prm.confirmWord = "APPLY" then
        let fs0 := copytree ["extracted"] ["work"] tmp
        let r := applyOps prm.old prm.new prm.suffixes prm.doRenameFiles
          prm.doRenameFolders prm.doChangeContents orc cands fs0
        ⟨r.1, r.2⟩
      else ⟨tmp, []⟩

/-- `MAX_FILE_LIST` (line 17). -/
def MAX_FILE_LIST : Nat := 1000

/-- The content-diff preview slice `content_candidates[:MAX_FILE_LIST]`
(line 105). -/
def previewContentDiffs (cands : List Path) : List Path :=
  cands.take MAX_FILE_LIST

/-- The entries of the read-only extracted reference copy. -/
def extractedPart (fs : FS) : FS :=
  fs.filter (fun e => e.1.head? == some "extracted")

/-! ### Basic lemmas about the phase loops -/

theorem renamePhase_nil (step : FS → Path → FS × LogEntry) (fs : FS) :
    renamePhase step [] fs = (fs, []) := rfl

theorem renamePhase_cons (step : FS → Path → FS × LogEntry) (src : Path)
    (rest : List Path) (fs : FS) :
    renamePhase step (src :: rest) fs
      = ((renamePhase step rest (step fs src).1).1,
         (step fs src).2 :: (renamePhase step rest (step fs src).1).2) := rfl

theorem renamePhase_append (step : FS → Path → FS × LogEntry) (xs ys : List Path)
    (fs : FS) :
    renamePhase step (xs ++ ys) fs
      = ((renamePhase step ys (renamePhase step xs fs).1).1,
         (renamePhase step xs fs).2
           ++ (renamePhase step ys (renamePhase step xs fs).1).2) := by
  induction xs generalizing fs with
  | nil => simp [renamePhase]
  | cons x xs ih => simp [renamePhase, ih]

theorem renamePhase_length (step : FS → Path → FS × LogEntry) (items : List Path)
    (fs : FS) : ((renamePhase step items fs).2).length = items.length := by
  induction items generalizing fs with
  | nil => rfl
  | cons x xs ih => simp [renamePhase, ih]

theorem renamePhase_relOf (step : FS → Path → FS × LogEntry)
    (hstep : ∀ fs src, ((step fs src).2).relOf = some (src.drop 1))
    (items : List Path) (fs : FS) :
    ((renamePhase step items fs).2).map LogEntry.relOf
      = items.map (fun p => some (p.drop 1)) := by
  induction items generalizing fs with
  | nil => rfl
  | cons x xs ih => simp [renamePhase, ih, hstep]

theorem fileRenameStep_relOf (old new : String) (err : Path → Bool) (fs : FS)
    (src : Path) :
    ((fileRenameStep old new err fs src).2).relOf = some (src.drop 1) := by
  unfold fileRenameStep
  dsimp only
  split
  · rfl
  · split <;> rfl

theorem folderRenameStep_relOf (old new : String) (err : Path → Bool) (fs : FS)
    (src : Path) :
    ((folderRenameStep old new err fs src).2).relOf = some (src.drop 1) := by
  unfold folderRenameStep
  dsimp only
  split
  · rfl
  · split <;> rfl

/-! ### The stable deepest-first sort -/

theorem insertDesc_perm (a : Path) (l : List Path) :
    List.Perm (insertDesc a l) (a :: l) := by
  induction l with
  | nil => rfl
  | cons b bs ih =>
    unfold insertDesc
    split
    · exact (List.Perm.cons b ih).trans (List.Perm.swap a b bs)
    · rfl

theorem foldl_insertDesc_perm (l : List Path) :
    ∀ acc, List.Perm (l.foldl (fun a p => insertDesc p a) acc) (l ++ acc) := by
  induction l with
  | nil => intro acc; simp
  | cons x xs ih =>
    intro acc
    have h1 := ih (insertDesc x acc)
    have h2 : List.Perm (xs ++ insertDesc x acc) (xs ++ (x :: acc)) :=
      List.Perm.append_left xs (insertDesc_perm x acc)
    have h3 : List.Perm (xs ++ (x :: acc)) (x :: (xs ++ acc)) :=
      List.perm_middle
    simpa using (h1.trans h2).trans h3

theorem sortDeepestFirst_perm (l : List Path) :
    List.Perm (sortDeepestFirst l) l := by
  simpa [sortDeepestFirst] using foldl_insertDesc_perm l []

theorem insertDesc_pairwise (a : Path) (l : List Path)
    (h : l.Pairwise (fun x y => pathStrLen y ≤ pathStrLen x)) :
    (insertDesc a l).Pairwise (fun x y => pathStrLen y ≤ pathStrLen x) := by
  induction l with
  | nil => simp [insertDesc]
  | cons b bs ih =>
    rcases List.pairwise_cons.mp h with ⟨hb, hbs⟩
    unfold insertDesc
    split
    · refine List.pairwise_cons.mpr ⟨?_, ih hbs⟩
      intro x hx
      rcases List.mem_cons.mp ((insertDesc_perm a bs).mem_iff.mp hx) with rfl | hxbs
      · assumption
      · exact hb x hxbs
    · refine List.pairwise_cons.mpr ⟨?_, h⟩
      intro x hx
      rcases List.mem_cons.mp hx with rfl | hxbs
      · omega
      · have := hb x hxbs; omega

theorem sortDeepestFirst_sorted (l : List Path) :
    (sortDeepestFirst l).Pairwise (fun x y => pathStrLen y ≤ pathStrLen x) := by
  suffices h : ∀ acc, acc.Pairwise (fun x y => pathStrLen y ≤ pathStrLen x) →
      (l.foldl (fun a p => insertDesc p a) acc).Pairwise
        (fun x y => pathStrLen y ≤ pathStrLen x) by
    exact h [] (by simp)
  induction l with
  | nil => intro acc hacc; simpa using hacc
  | cons x xs ih =>
    intro acc hacc
    exact ih (insertDesc x acc) (insertDesc_pairwise x acc hacc)

theorem pathStrLen_append (p q : Path) :
    pathStrLen (p ++ q) = pathStrLen p + pathStrLen q := by
  simp [pathStrLen]
  omega

theorem proper_prefix_pathStrLen_lt (p q : Path) (h : p <+: q) (hne : p ≠ q) :
    pathStrLen p < pathStrLen q := by
  obtain ⟨t, rfl⟩ := h
  have ht : t ≠ [] := by rintro rfl; simp at hne
  have h1 : 1 ≤ pathStrLen t := by
    cases t with
    | nil => exact absurd rfl ht
    | cons a as => simp [pathStrLen]; omega
  rw [pathStrLen_append]
  omega

/-! ### C1: the confirmation gate -/

/-- C1.  Confirmation gate: if the supplied confirmation token is not exactly
the case-sensitive literal "APPLY", the run performs no filesystem mutation —
the temp-dir tree (extracted copy included) is returned unchanged and the
operation log stays empty, regardless of the apply checkboxes, the click, or
the failure oracles. -/
theorem confirmation_gate_noop (prm : Params) (orc : Oracles) (tmp : FS)
    (h : prm.confirmWord ≠ "APPLY") : run prm orc tmp = ⟨tmp, []⟩ := by
  unfold run
  split
  · rfl
  · split
    · rfl
    · rw [if_neg]
      rintro ⟨-, h2⟩
      exact h h2

theorem confirmation_gate_noop_witness :
    run ⟨"old", "new", [".txt"], true, true, true, "apply", true⟩
      ⟨fun _ => false, fun _ => false, fun _ => false⟩
      [(["extracted", "a_old.txt"], Node.file (some "old"))]
      = ⟨[(["extracted", "a_old.txt"], Node.file (some "old"))], []⟩ :=
  confirmation_gate_noop _ _ _ (by decide)

/-! ### C2: deepest-path-first mutation ordering -/

theorem renamePhase_log_split (step : FS → Path → FS × LogEntry)
    (hstep : ∀ fs src, ((step fs src).2).relOf = some (src.drop 1))
    (a b1 b2 : List Path) (x y : Path) (fs : FS) :
    ∃ A B C e2 e1,
      (renamePhase step (a ++ x :: (b1 ++ y :: b2)) fs).2 = A ++ e2 :: (B ++ e1 :: C) ∧
      e2.relOf = some (x.drop 1) ∧ e1.relOf = some (y.drop 1) := by
  rw [renamePhase_append, renamePhase_cons]
  dsimp only
  rw [renamePhase_append, renamePhase_cons]
  dsimp only
  exact ⟨_, _, _, _, _, rfl, hstep _ _, hstep _ _⟩

theorem applyOps_log (old new : String) (sfx : List String) (doF doD doC : Bool)
    (orc : Oracles) (cands : ScanResult) (fs0 : FS) :
    (applyOps old new sfx doF doD doC orc cands fs0).2
      = (filePhaseRun old new orc.errFile doF cands fs0).2
        ++ (folderPhaseRun old new orc.errFolder doD cands
              (filePhaseRun old new orc.errFile doF cands fs0).1).2
        ++ (contentPhaseRun old new sfx orc.errWrite doC
              (folderPhaseRun old new orc.errFolder doD cands
                (filePhaseRun old new orc.errFile doF cands fs0).1).1).2.2
        ++ [LogEntry.total (contentPhaseRun old new sfx orc.errWrite doC
              (folderPhaseRun old new orc.errFolder doD cands
                (filePhaseRun old new orc.errFile doF cands fs0).1).1).2.1] := rfl

theorem applyOps_fs (old new : String) (sfx : List String) (doF doD doC : Bool)
    (orc : Oracles) (cands : ScanResult) (fs0 : FS) :
    (applyOps old new sfx doF doD doC orc cands fs0).1
      = (contentPhaseRun old new sfx orc.errWrite doC
          (folderPhaseRun old new orc.errFolder doD cands
            (filePhaseRun old new orc.errFile doF cands fs0).1).1).1 := rfl

/-- C2.  Mutation ordering: file renames are applied first and folder renames
second, each loop iterating a stable sort of the candidates by descending
path-string length (the sort is a permutation of the candidates in pairwise
descending `pathStrLen` order); consequently, for nested matching folders the
deeper one (`p2`, below `p1`) is attempted — and its line logged — strictly
before its ancestor, whatever the collision or failure outcomes are. -/
theorem rename_order_deepest_first (prm : Params) (orc : Oracles) (tmp : FS)
    (cands : ScanResult) (p1 p2 : Path)
    (hscan : scan prm.old prm.new prm.suffixes (rglob ["extracted"] tmp) = .ok cands)
    (hold : ¬prm.old = "")
    (hclick : prm.applyClicked = true) (hconf : prm.confirmWord = "APPLY")
    (hdoD : prm.doRenameFolders = true)
    (h1 : p1 ∈ cands.folderCands.map Prod.fst)
    (h2 : p2 ∈ cands.folderCands.map Prod.fst)
    (hpre : p1 <+: p2) (hne : p1 ≠ p2) :
    ∃ A mid post e2 e1,
      (run prm orc tmp).log
        = (filePhaseRun prm.old prm.new orc.errFile prm.doRenameFiles cands
            (copytree ["extracted"] ["work"] tmp)).2 ++ A ++ e2 :: (mid ++ e1 :: post) ∧
      e2.relOf = some (p2.drop 1) ∧ e1.relOf = some (p1.drop 1) := by
  have hlen : pathStrLen p1 < pathStrLen p2 := proper_prefix_pathStrLen_lt p1 p2 hpre hne
  set items := sortDeepestFirst (cands.folderCands.map Prod.fst) with hitems
  have hsorted : items.Pairwise (fun x y => pathStrLen y ≤ pathStrLen x) :=
    sortDeepestFirst_sorted _
  have h1m : p1 ∈ items := (sortDeepestFirst_perm _).mem_iff.mpr h1
  have h2m : p2 ∈ items := (sortDeepestFirst_perm _).mem_iff.mpr h2
  -- split items at p2, then at p1 further right
  obtain ⟨a, b, hab⟩ := List.append_of_mem h2m
  have hsorted' := hab ▸ hsorted
  have h1ab : p1 ∈ a ++ p2 :: b := hab ▸ h1m
  have h1b : p1 ∈ b := by
    rcases List.mem_append.mp h1ab with h1a | h1pb
    · exfalso
      have := (List.pairwise_append.mp hsorted').2.2 p1 h1a p2 (List.mem_cons_self p2 b)
      omega
    · rcases List.mem_cons.mp h1pb with rfl | h
      · exact absurd rfl hne
      · exact h
  obtain ⟨b1, b2, hb⟩ := List.append_of_mem h1b
  have hitems2 : items = a ++ p2 :: (b1 ++ p1 :: b2) := by rw [hab, hb]
  -- reduce the run to applyOps
  set fs0 := copytree ["extracted"] ["work"] tmp with hfs0
  have hrun : (run prm orc tmp).log
      = (applyOps prm.old prm.new prm.suffixes prm.doRenameFiles
          prm.doRenameFolders prm.doChangeContents orc cands fs0).2 := by
    unfold run
    rw [if_neg hold, hscan]
    dsimp only
    rw [if_pos ⟨hclick, hconf⟩]
  -- the folder phase is the sorted loop, and its log splits at p2 and p1
  set F1 := (filePhaseRun prm.old prm.new orc.errFile prm.doRenameFiles cands fs0).1
  have hfold : folderPhaseRun prm.old prm.new orc.errFolder prm.doRenameFolders cands F1
      = renamePhase (folderRenameStep prm.old prm.new orc.errFolder) items F1 := by
    rw [hdoD]
    rfl
  obtain ⟨A, B, C, e2, e1, hsplit, he2, he1⟩ :=
    renamePhase_log_split (folderRenameStep prm.old prm.new orc.errFolder)
      (folderRenameStep_relOf prm.old prm.new orc.errFolder) a b1 b2 p2 p1 F1
  rw [← hitems2] at hsplit
  refine ⟨A,
    B, C ++ (contentPhaseRun prm.old prm.new prm.suffixes orc.errWrite
        prm.doChangeContents
        (folderPhaseRun prm.old prm.new orc.errFolder prm.doRenameFolders cands F1).1).2.2
      ++ [LogEntry.total (contentPhaseRun prm.old prm.new prm.suffixes orc.errWrite
        prm.doChangeContents
        (folderPhaseRun prm.old prm.new orc.errFolder prm.doRenameFolders cands F1).1).2.1],
    e2, e1, ?_, he2, he1⟩
  rw [hrun, applyOps_log, hfold, hsplit]
  simp only [List.append_assoc, List.cons_append]

theorem rename_order_deepest_first_witness :
    ∃ A mid post e2 e1,
      (run ⟨"old", "new", [], true, true, true, "APPLY", true⟩
          ⟨fun _ => false, fun _ => false, fun _ => false⟩
          [(["extracted", "A"], Node.dir),
           (["extracted", "A", "old1"], Node.dir),
           (["extracted", "A", "old1", "old2"], Node.dir)]).log
        = (filePhaseRun "old" "new" (fun _ => false) true
            ⟨[], [], [(["extracted", "A", "old1"], ["extracted", "A", "new1"]),
                      (["extracted", "A", "old1", "old2"],
                       ["extracted", "A", "old1", "new2"])]⟩
            (copytree ["extracted"] ["work"]
              [(["extracted", "A"], Node.dir),
               (["extracted", "A", "old1"], Node.dir),
               (["extracted", "A", "old1", "old2"], Node.dir)])).2
          ++ A ++ e2 :: (mid ++ e1 :: post) ∧
      e2.relOf = some ["A", "old1", "old2"] ∧
      e1.relOf = some ["A", "old1"] :=
  rename_order_deepest_first
    ⟨"old", "new", [], true, true, true, "APPLY", true⟩
    ⟨fun _ => false, fun _ => false, fun _ => false⟩
    [(["extracted", "A"], Node.dir),
     (["extracted", "A", "old1"], Node.dir),
     (["extracted", "A", "old1", "old2"], Node.dir)]
    ⟨[], [], [(["extracted", "A", "old1"], ["extracted", "A", "new1"]),
              (["extracted", "A", "old1", "old2"],
               ["extracted", "A", "old1", "new2"])]⟩
    ["extracted", "A", "old1"] ["extracted", "A", "old1", "old2"]
    (by decide) (by decide) rfl rfl rfl (by decide) (by decide) (by decide) (by decide)

/-! ### C3: per-item collision policy -/

/-- C3.  Collision policy, for both rename loops: when the destination path
already exists at the moment of the rename, that single item produces exactly
one `SKIP` log line, the tree is left as it stands (for the file loop, only
the preceding `mkdir` may have added fresh directory entries — third
conjunct: `mkdirParents` only appends directories at paths that did not exist
— so the source entry and the pre-existing destination are untouched), and
the loop continues with the remaining candidates. -/
theorem collision_skip_per_item :
    (∀ (old new : String) (err : Path → Bool) (fs : FS) (src : Path)
       (rest : List Path),
      pathExistsB (folderDst old new src) fs = true →
      renamePhase (folderRenameStep old new err) (src :: rest) fs
        = ((renamePhase (folderRenameStep old new err) rest fs).1,
           LogEntry.skipFolder (src.drop 1) (strReplace old new (name src))
             :: (renamePhase (folderRenameStep old new err) rest fs).2)) ∧
    (∀ (old new : String) (err : Path → Bool) (fs : FS) (src : Path)
       (rest : List Path),
      pathExistsB (fileDst old new src)
          (mkdirParents (fileDst old new src).dropLast fs) = true →
      renamePhase (fileRenameStep old new err) (src :: rest) fs
        = ((renamePhase (fileRenameStep old new err) rest
              (mkdirParents (fileDst old new src).dropLast fs)).1,
           LogEntry.skipFile (src.drop 1) (strReplace old new (name src))
             :: (renamePhase (fileRenameStep old new err) rest
              (mkdirParents (fileDst old new src).dropLast fs)).2)) ∧
    (∀ (q : Path) (fs : FS), ∃ extra, mkdirParents q fs = fs ++ extra ∧
       ∀ e ∈ extra, e.2 = Node.dir ∧ pathExistsB e.1 fs = false) := by
  refine ⟨?_, ?_, ?_⟩
  · intro old new err fs src rest h
    rw [renamePhase_cons]
    have hstep : folderRenameStep old new err fs src
        = (fs, LogEntry.skipFolder (src.drop 1) (strReplace old new (name src))) := by
      unfold folderRenameStep
      dsimp only
      rw [if_pos h]
    rw [hstep]
  · intro old new err fs src rest h
    rw [renamePhase_cons]
    have hstep : fileRenameStep old new err fs src
        = (mkdirParents (fileDst old new src).dropLast fs,
           LogEntry.skipFile (src.drop 1) (strReplace old new (name src))) := by
      unfold fileRenameStep
      dsimp only
      rw [if_pos h]
    rw [hstep]
  · intro q fs
    refine ⟨_, rfl, ?_⟩
    intro e he
    rcases List.mem_map.mp he with ⟨pre, hpre, rfl⟩
    rcases List.mem_filter.mp hpre with ⟨-, hnp⟩
    simpa using hnp

theorem collision_skip_per_item_witness :
    renamePhase (folderRenameStep "o" "n" (fun _ => false)) [["extracted", "o"]]
        [(["extracted", "o"], Node.dir), (["work", "n"], Node.dir)]
      = ([(["extracted", "o"], Node.dir), (["work", "n"], Node.dir)],
         [LogEntry.skipFolder ["o"] "n"]) := by
  have h := collision_skip_per_item.1 "o" "n" (fun _ => false)
      [(["extracted", "o"], Node.dir), (["work", "n"], Node.dir)]
      ["extracted", "o"] [] (by decide)
  simpa [renamePhase] using h

/-! ### C4: per-item failure isolation -/

/-- C4.  Failure isolation: a raised rename produces exactly one `ERROR` line
for that item and leaves the tree untouched (beyond the file loop's `mkdir`),
with the loop continuing on the remaining candidates (first two conjuncts); a
raised content write produces exactly one `ERROR` line and no state change
(third conjunct); whatever the failure oracles decide, each rename loop still
emits one line per candidate (fourth conjunct) and the executor always runs
to completion, ending the log with the summary line (fifth conjunct). -/
theorem per_item_failure_isolation :
    (∀ (old new : String) (err : Path → Bool) (fs : FS) (src : Path)
       (rest : List Path),
      err src = true →
      pathExistsB (folderDst old new src) fs = false →
      renamePhase (folderRenameStep old new err) (src :: rest) fs
        = ((renamePhase (folderRenameStep old new err) rest fs).1,
           LogEntry.errorFolder (src.drop 1)
             :: (renamePhase (folderRenameStep old new err) rest fs).2)) ∧
    (∀ (old new : String) (err : Path → Bool) (fs : FS) (src : Path)
       (rest : List Path),
      err src = true →
      pathExistsB (fileDst old new src)
          (mkdirParents (fileDst old new src).dropLast fs) = false →
      renamePhase (fileRenameStep old new err) (src :: rest) fs
        = ((renamePhase (fileRenameStep old new err) rest
              (mkdirParents (fileDst old new src).dropLast fs)).1,
           LogEntry.errorFile (src.drop 1)
             :: (renamePhase (fileRenameStep old new err) rest
              (mkdirParents (fileDst old new src).dropLast fs)).2)) ∧
    (∀ (old new : String) (sfx : List String) (errW : Path → Bool)
       (acc : FS × Nat × List LogEntry) (p : Path) (txt : String),
      pySuffix (name p) ∈ sfx → substrB old txt = true → errW p = true →
      contentStep old new sfx errW acc (p, Node.file (some txt))
        = (acc.1, acc.2.1, acc.2.2 ++ [LogEntry.errorUpdate (p.drop 1)])) ∧
    (∀ (step : FS → Path → FS × LogEntry) (items : List Path) (fs : FS),
      ((renamePhase step items fs).2).length = items.length) ∧
    (∀ (old new : String) (sfx : List String) (doF doD doC : Bool)
       (orc : Oracles) (cands : ScanResult) (fs0 : FS),
      ∃ k, ((applyOps old new sfx doF doD doC orc cands fs0).2).getLast?
        = some (LogEntry.total k)) := by
  refine ⟨?_, ?_, ?_, renamePhase_length, ?_⟩
  · intro old new err fs src rest herr hex
    rw [renamePhase_cons]
    have hstep : folderRenameStep old new err fs src
        = (fs, LogEntry.errorFolder (src.drop 1)) := by
      unfold folderRenameStep
      dsimp only
      rw [if_neg (by rw [hex]; exact Bool.false_ne_true), if_pos herr]
    rw [hstep]
  · intro old new err fs src rest herr hex
    rw [renamePhase_cons]
    have hstep : fileRenameStep old new err fs src
        = (mkdirParents (fileDst old new src).dropLast fs,
           LogEntry.errorFile (src.drop 1)) := by
      unfold fileRenameStep
      dsimp only
      rw [if_neg (by rw [hex]; exact Bool.false_ne_true), if_pos herr]
    rw [hstep]
  · intro old new sfx errW acc p txt hsfx hsub herr
    unfold contentStep
    dsimp only
    rw [if_pos hsfx, if_pos hsub, if_pos herr]
  · intro old new sfx doF doD doC orc cands fs0
    refine ⟨(contentPhaseRun old new sfx orc.errWrite doC
        (folderPhaseRun old new orc.errFolder doD cands
          (filePhaseRun old new orc.errFile doF cands fs0).1).1).2.1, ?_⟩
    rw [applyOps_log]
    simp

theorem per_item_failure_isolation_witness :
    contentStep "old" "new" [".txt"] (fun _ => true)
        ([(["work", "a_old.txt"], Node.file (some "old"))], 0, [])
        (["work", "a_old.txt"], Node.file (some "old"))
      = ([(["work", "a_old.txt"], Node.file (some "old"))], 0,
         [LogEntry.errorUpdate ["a_old.txt"]]) := by
  have h := per_item_failure_isolation.2.2.1 "old" "new" [".txt"] (fun _ => true)
      ([(["work", "a_old.txt"], Node.file (some "old"))], 0, [])
      ["work", "a_old.txt"] "old" (by decide) (by decide) rfl
  simpa using h

/-! ### Characterizing the content-replacement pass -/

/-- The log line one attempted content update produces. -/
def contentLine (errW : Path → Bool) (e : Path × Node) : LogEntry :=
  if errW e.1 then LogEntry.errorUpdate (e.1.drop 1)
  else LogEntry.updated (e.1.drop 1)

/-- The tree change of one content-loop iteration. -/
def contentWriteEffect (old new : String) (sfx : List String)
    (errW : Path → Bool) (fs : FS) (e : Path × Node) : FS :=
  match e.2 with
  | Node.file (some txt) =>
    if decide (pySuffix (name e.1) ∈ sfx) && substrB old txt && !errW e.1 then
      writeFile e.1 (strReplace old new txt) fs
    else fs
  | Node.file none => fs
  | Node.dir => fs

theorem contentFold_spec (old new : String) (sfx : List String)
    (errW : Path → Bool) (l : List (Path × Node)) :
    ∀ (fs : FS) (k : Nat) (L : List LogEntry),
    l.foldl (contentStep old new sfx errW) (fs, k, L)
      = (l.foldl (contentWriteEffect old new sfx errW) fs,
         k + (l.filter (fun e => contentAttempt old sfx e && !errW e.1)).length,
         L ++ (l.filter (contentAttempt old sfx)).map (contentLine errW)) := by
  induction l with
  | nil => intro fs k L; simp
  | cons e es ih =>
    intro fs k L
    rw [List.foldl_cons, List.foldl_cons]
    rcases e with ⟨p, node⟩
    cases node with
    | dir =>
      rw [ih]
      simp [contentStep, contentAttempt, contentWriteEffect]
    | file t =>
      cases t with
      | none =>
        rw [show contentStep old new sfx errW (fs, k, L) (p, Node.file none)
            = (fs, k, L) by unfold contentStep; dsimp only; rw [ite_self],
          show contentWriteEffect old new sfx errW fs (p, Node.file none) = fs
            from rfl, ih]
        simp [contentAttempt]
      | some txt =>
        by_cases h1 : pySuffix (name p) ∈ sfx
        · by_cases h2 : substrB old txt = true
          · by_cases h3 : errW p = true
            · rw [show contentStep old new sfx errW (fs, k, L) (p, Node.file (some txt))
                  = (fs, k, L ++ [LogEntry.errorUpdate (p.drop 1)]) by
                    unfold contentStep; dsimp only; rw [if_pos h1, if_pos h2, if_pos h3],
                show contentWriteEffect old new sfx errW fs (p, Node.file (some txt)) = fs by
                  unfold contentWriteEffect; dsimp only
                  rw [if_neg (by simp [h3])],
                ih]
              simp [contentAttempt, contentLine, h1, h2, h3]
            · rw [show contentStep old new sfx errW (fs, k, L) (p, Node.file (some txt))
                  = (writeFile p (strReplace old new txt) fs, k + 1,
                     L ++ [LogEntry.updated (p.drop 1)]) by
                    unfold contentStep; dsimp only; rw [if_pos h1, if_pos h2, if_neg h3],
                show contentWriteEffect old new sfx errW fs (p, Node.file (some txt))
                  = writeFile p (strReplace old new txt) fs by
                  unfold contentWriteEffect; dsimp only
                  rw [if_pos (by simp [h1, h2, h3])],
                ih]
              simp [contentAttempt, contentLine, h1, h2, h3]
              omega
          · rw [show contentStep old new sfx errW (fs, k, L) (p, Node.file (some txt))
                = (fs, k, L) by
                  unfold contentStep; dsimp only; rw [if_pos h1, if_neg h2],
              show contentWriteEffect old new sfx errW fs (p, Node.file (some txt)) = fs by
                unfold contentWriteEffect; dsimp only
                rw [if_neg (by simp [h2])],
              ih]
            simp [contentAttempt, h1, h2]
        · rw [show contentStep old new sfx errW (fs, k, L) (p, Node.file (some txt))
              = (fs, k, L) by
                unfold contentStep; dsimp only; rw [if_neg h1],
            show contentWriteEffect old new sfx errW fs (p, Node.file (some txt)) = fs by
              unfold contentWriteEffect; dsimp only
              rw [if_neg (by simp [h1])],
            ih]
          simp [contentAttempt, h1]

theorem contentPhase_spec (old new : String) (sfx : List String)
    (errW : Path → Bool) (fs : FS) :
    contentPhase old new sfx errW fs
      = ((rglob ["work"] fs).foldl (contentWriteEffect old new sfx errW) fs,
         ((rglob ["work"] fs).filter
           (fun e => contentAttempt old sfx e && !errW e.1)).length,
         ((rglob ["work"] fs).filter (contentAttempt old sfx)).map
           (contentLine errW)) := by
  rw [contentPhase, contentFold_spec]
  simp

/-! ### C7: the logging contract -/

theorem isUpdated_contentLine (errW : Path → Bool) (e : Path × Node) :
    LogEntry.isUpdated (contentLine errW e) = !errW e.1 := by
  unfold contentLine
  split <;> simp_all [LogEntry.isUpdated]

/-- C7.  Logging contract: the run's log is exactly the file-loop log, then
the folder-loop log, then the content-loop log, then the single summary line
(first conjunct); each rename loop emits exactly one line per attempted
candidate, in the deepest-first order the loop walks them (second and third
conjuncts, via `relOf`); the content loop emits exactly one line per
attempted update, in tree order (fourth conjunct); and the number carried by
the summary line equals the count of successful content-update lines (fifth
conjunct). -/
theorem logging_contract (old new : String) (sfx : List String)
    (doF doD doC : Bool) (orc : Oracles) (cands : ScanResult) (fs0 : FS) :
    ((applyOps old new sfx doF doD doC orc cands fs0).2
      = (filePhaseRun old new orc.errFile doF cands fs0).2
        ++ (folderPhaseRun old new orc.errFolder doD cands
              (filePhaseRun old new orc.errFile doF cands fs0).1).2
        ++ (contentPhaseRun old new sfx orc.errWrite doC
              (folderPhaseRun old new orc.errFolder doD cands
                (filePhaseRun old new orc.errFile doF cands fs0).1).1).2.2
        ++ [LogEntry.total (contentPhaseRun old new sfx orc.errWrite doC
              (folderPhaseRun old new orc.errFolder doD cands
                (filePhaseRun old new orc.errFile doF cands fs0).1).1).2.1]) ∧
    (∀ fs1, ((filePhaseRun old new orc.errFile doF cands fs1).2).map LogEntry.relOf
      = (if doF then sortDeepestFirst (cands.fileCands.map Prod.fst) else []).map
          (fun p => some (p.drop 1))) ∧
    (∀ fs1, ((folderPhaseRun old new orc.errFolder doD cands fs1).2).map LogEntry.relOf
      = (if doD then sortDeepestFirst (cands.folderCands.map Prod.fst) else []).map
          (fun p => some (p.drop 1))) ∧
    (∀ fs2, (contentPhaseRun old new sfx orc.errWrite doC fs2).2.2
      = if doC then ((rglob ["work"] fs2).filter (contentAttempt old sfx)).map
          (contentLine orc.errWrite) else []) ∧
    (∀ fs2, (contentPhaseRun old new sfx orc.errWrite doC fs2).2.1
      = ((contentPhaseRun old new sfx orc.errWrite doC fs2).2.2).countP
          LogEntry.isUpdated) := by
  refine ⟨applyOps_log old new sfx doF doD doC orc cands fs0, ?_, ?_, ?_, ?_⟩
  · intro fs1
    cases doF
    · rfl
    · exact renamePhase_relOf _ (fileRenameStep_relOf old new orc.errFile) _ _
  · intro fs1
    cases doD
    · rfl
    · exact renamePhase_relOf _ (folderRenameStep_relOf old new orc.errFolder) _ _
  · intro fs2
    cases doC
    · rfl
    · show (contentPhase old new sfx orc.errWrite fs2).2.2 = _
      rw [contentPhase_spec, if_pos rfl]
  · intro fs2
    cases doC
    · rfl
    · show (contentPhase old new sfx orc.errWrite fs2).2.1
        = ((contentPhase old new sfx orc.errWrite fs2).2.2).countP LogEntry.isUpdated
      rw [contentPhase_spec]
      dsimp only
      rw [List.countP_map, List.countP_eq_length_filter, List.filter_filter]
      congr 1
      apply List.filter_congr
      intro e he
      rw [Bool.and_comm]
      congr 1
      exact (isUpdated_contentLine orc.errWrite e).symm

/-! ### C5: the content-replacement pass rewrites every matching file -/

theorem mem_of_mem_rglob {root : Path} {fs : FS} {e : Path × Node}
    (h : e ∈ rglob root fs) : e ∈ fs ∧ root <+: e.1 ∧ e.1 ≠ root := by
  rcases List.mem_filter.mp h with ⟨h1, h2⟩
  simp only [Bool.and_eq_true, Bool.not_eq_true'] at h2
  refine ⟨h1, List.isPrefixOf_iff_prefix.mp h2.1, ?_⟩
  intro hq
  rw [hq] at h2
  simp at h2

theorem mem_writeFile_other (q p : Path) (n : Node) (t : String) (fs : FS)
    (hne : p ≠ q) (h : (p, n) ∈ fs) : (p, n) ∈ writeFile q t fs := by
  unfold writeFile
  refine List.mem_map.mpr ⟨(p, n), h, ?_⟩
  simp [hne]

theorem mem_writeFile_self (q : Path) (t0 : Option String) (t : String) (fs : FS)
    (h : (q, Node.file t0) ∈ fs) : (q, Node.file (some t)) ∈ writeFile q t fs := by
  unfold writeFile
  refine List.mem_map.mpr ⟨(q, Node.file t0), h, ?_⟩
  simp

theorem effectFold_preserve (old new : String) (sfx : List String)
    (errW : Path → Bool) (p : Path) (n : Node) (l : List (Path × Node))
    (hl : ∀ e ∈ l, e.1 = p → contentAttempt old sfx e = false) :
    ∀ fs, (p, n) ∈ fs →
      (p, n) ∈ l.foldl (contentWriteEffect old new sfx errW) fs := by
  induction l with
  | nil => intro fs h; exact h
  | cons e es ih =>
    intro fs h
    rw [List.foldl_cons]
    refine ih (fun e' he' => hl e' (List.mem_cons_of_mem _ he')) _ ?_
    by_cases hp : e.1 = p
    · have hatt := hl e (List.mem_cons_self _ _) hp
      rcases e with ⟨q, node⟩
      cases node with
      | dir => exact h
      | file t =>
        cases t with
        | none => exact h
        | some txt =>
          unfold contentWriteEffect
          dsimp only
          rw [if_neg ?_]
          · exact h
          · simp only [contentAttempt] at hatt
            simp [hatt]
    · rcases e with ⟨q, node⟩
      cases node with
      | dir => exact h
      | file t =>
        cases t with
        | none => exact h
        | some txt =>
          unfold contentWriteEffect
          dsimp only
          split
          · exact mem_writeFile_other q p n _ fs (fun hh => hp hh.symm) h
          · exact h

theorem effectFold_write_target (old new : String) (sfx : List String)
    (errW : Path → Bool) (l1 l2 : List (Path × Node)) (p : Path) (txt : String)
    (hsfx : pySuffix (name p) ∈ sfx) (hsub : substrB old txt = true)
    (herr : errW p = false)
    (hl1 : ∀ e ∈ l1, e.1 ≠ p) (hl2 : ∀ e ∈ l2, e.1 ≠ p) (fs : FS)
    (hmem : (p, Node.file (some txt)) ∈ fs) :
    (p, Node.file (some (strReplace old new txt)))
      ∈ (l1 ++ (p, Node.file (some txt)) :: l2).foldl
          (contentWriteEffect old new sfx errW) fs := by
  rw [List.foldl_append, List.foldl_cons]
  have hfs1 : (p, Node.file (some txt))
      ∈ l1.foldl (contentWriteEffect old new sfx errW) fs :=
    effectFold_preserve old new sfx errW p _ l1
      (fun e he hp => absurd hp (hl1 e he)) fs hmem
  have hstep : contentWriteEffect old new sfx errW
      (l1.foldl (contentWriteEffect old new sfx errW) fs) (p, Node.file (some txt))
      = writeFile p (strReplace old new txt)
          (l1.foldl (contentWriteEffect old new sfx errW) fs) := by
    unfold contentWriteEffect
    dsimp only
    rw [if_pos (by simp [hsfx, hsub, herr])]
  rw [hstep]
  refine effectFold_preserve old new sfx errW p _ l2
    (fun e he hp => absurd hp (hl2 e he)) _ ?_
  exact mem_writeFile_self p (some txt) _ _ hfs1

/-- C5.  Content replacement: over a working tree with no duplicate paths and
with no write failure injected, the pass re-scans the tree and leaves, for
every file whose suffix is in the allow-list and whose decoded text contains
`old`, the whole file rewritten with every non-overlapping occurrence of
`old` replaced by `new` (first conjunct); a file whose text fails to decode
is left untouched and no log line — in particular no error — mentions it
(second conjunct). -/
theorem content_replacement_last (old new : String) (sfx : List String)
    (fs : FS) (hnd : ((rglob ["work"] fs).map Prod.fst).Nodup) :
    (∀ p txt, (p, Node.file (some txt)) ∈ rglob ["work"] fs →
       pySuffix (name p) ∈ sfx → substrB old txt = true →
       (p, Node.file (some (strReplace old new txt)))
         ∈ (contentPhase old new sfx (fun _ => false) fs).1) ∧
    (∀ p, (p, Node.file none) ∈ rglob ["work"] fs →
       (p, Node.file none) ∈ (contentPhase old new sfx (fun _ => false) fs).1 ∧
       ∀ e ∈ (contentPhase old new sfx (fun _ => false) fs).2.2,
         e.relOf ≠ some (p.drop 1)) := by
  have huniq : ∀ x ∈ rglob ["work"] fs, ∀ y ∈ rglob ["work"] fs,
      x.1 = y.1 → x = y := by
    intro x hx y hy hxy
    exact List.inj_on_of_nodup_map hnd hx hy hxy
  constructor
  · intro p txt hmem hsfx hsub
    rw [contentPhase_spec]
    dsimp only
    obtain ⟨l1, l2, hsplit⟩ := List.append_of_mem hmem
    have hnd2 := hnd
    rw [hsplit, List.map_append, List.map_cons] at hnd2
    rcases List.nodup_append.mp hnd2 with ⟨-, hcons, hdisj⟩
    have hp1 : p ∉ l1.map Prod.fst :=
      fun hp => hdisj hp (List.mem_cons_self _ _)
    have hp2 : p ∉ l2.map Prod.fst := (List.nodup_cons.mp hcons).1
    have hl1 : ∀ e ∈ l1, e.1 ≠ p :=
      fun e he hp => hp1 (hp ▸ List.mem_map_of_mem Prod.fst he)
    have hl2 : ∀ e ∈ l2, e.1 ≠ p :=
      fun e he hp => hp2 (hp ▸ List.mem_map_of_mem Prod.fst he)
    rw [hsplit]
    exact effectFold_write_target old new sfx (fun _ => false) l1 l2 p txt
      hsfx hsub rfl hl1 hl2 fs (mem_of_mem_rglob hmem).1
  · intro p hmem
    have hworkp : ["work"] <+: p := (mem_of_mem_rglob hmem).2.1
    have hatt : ∀ e ∈ rglob ["work"] fs, e.1 = p →
        contentAttempt old sfx e = false := by
      intro e he hp
      have : e = (p, Node.file none) := huniq e he _ hmem hp
      rw [this]
      rfl
    constructor
    · rw [contentPhase_spec]
      dsimp only
      exact effectFold_preserve old new sfx (fun _ => false) p (Node.file none)
        (rglob ["work"] fs) hatt fs (mem_of_mem_rglob hmem).1
    · intro e he hrel
      rw [contentPhase_spec] at he
      dsimp only at he
      rcases List.mem_map.mp he with ⟨e', he', rfl⟩
      rcases List.mem_filter.mp he' with ⟨he'mem, he'att⟩
      have hrel' : (contentLine (fun _ => false) e').relOf = some (e'.1.drop 1) := rfl
      rw [hrel'] at hrel
      have hdrop : e'.1.drop 1 = p.drop 1 := Option.some_injective _ hrel
      have hworke : ["work"] <+: e'.1 := (mem_of_mem_rglob he'mem).2.1
      obtain ⟨t1, ht1⟩ := hworke
      obtain ⟨t2, ht2⟩ := hworkp
      have hpeq : e'.1 = p := by
        rw [← ht1, ← ht2]
        rw [← ht1, ← ht2] at hdrop
        simpa using hdrop
      have : e' = (p, Node.file none) := huniq e' he'mem _ hmem hpeq
      rw [this] at he'att
      simp [contentAttempt] at he'att

theorem content_replacement_last_witness :
    (["work", "a_old.txt"], Node.file (some "x_new"))
      ∈ (contentPhase "old" "new" [".txt"] (fun _ => false)
          [(["work"], Node.dir),
           (["work", "a_old.txt"], Node.file (some "x_old")),
           (["work", "b.txt"], Node.file none)]).1 :=
  (content_replacement_last "old" "new" [".txt"]
      [(["work"], Node.dir),
       (["work", "a_old.txt"], Node.file (some "x_old")),
       (["work", "b.txt"], Node.file none)] (by decide)).1
    ["work", "a_old.txt"] "x_old" (by decide) (by decide) (by decide)

/-! ### C8: the extracted reference copy is never mutated -/

theorem extractedPart_append (fs ys : FS) :
    extractedPart (fs ++ ys) = extractedPart fs ++ extractedPart ys :=
  List.filter_append _ _

theorem extractedPart_renamePath (s d : List String) (fs : FS) :
    extractedPart (renamePath ("work" :: s) ("work" :: d) fs) = extractedPart fs := by
  induction fs with
  | nil => rfl
  | cons e es ih =>
    rcases e with ⟨q, n⟩
    show extractedPart ((if ("work" :: s).isPrefixOf q = true
        then (("work" :: d) ++ q.drop ("work" :: s).length, n) else (q, n))
        :: renamePath ("work" :: s) ("work" :: d) es) = _
    by_cases hpre : ("work" :: s).isPrefixOf q = true
    · rw [if_pos hpre]
      have hq : q.head? = some "work" := by
        obtain ⟨t, ht⟩ := List.isPrefixOf_iff_prefix.mp hpre
        rw [← ht]
        rfl
      unfold extractedPart
      rw [List.filter_cons, List.filter_cons]
      rw [if_neg (by simp), if_neg (by simp [hq])]
      exact ih
    · rw [if_neg hpre]
      unfold extractedPart
      rw [List.filter_cons, List.filter_cons]
      by_cases hq : ((q, n).1.head? == some "extracted") = true
      · rw [if_pos hq, if_pos hq]
        rw [show List.filter (fun e => e.1.head? == some "extracted")
            (renamePath ("work" :: s) ("work" :: d) es) = extractedPart
            (renamePath ("work" :: s) ("work" :: d) es) from rfl, ih]
        rfl
      · rw [if_neg hq, if_neg hq]
        exact ih

theorem extractedPart_writeFile (q' : List String) (t : String) (fs : FS) :
    extractedPart (writeFile ("work" :: q') t fs) = extractedPart fs := by
  induction fs with
  | nil => rfl
  | cons e es ih =>
    rcases e with ⟨p, n⟩
    show extractedPart ((if p == ("work" :: q') then (p, Node.file (some t))
        else (p, n)) :: writeFile ("work" :: q') t es) = _
    by_cases hbeq : (p == ("work" :: q')) = true
    · rw [if_pos hbeq]
      have hp : p = "work" :: q' := eq_of_beq hbeq
      unfold extractedPart
      rw [List.filter_cons, List.filter_cons]
      rw [if_neg (by simp [hp]), if_neg (by simp [hp])]
      exact ih
    · rw [if_neg hbeq]
      unfold extractedPart
      rw [List.filter_cons, List.filter_cons]
      by_cases hq : ((p, n).1.head? == some "extracted") = true
      · rw [if_pos hq, if_pos hq]
        rw [show List.filter (fun e => e.1.head? == some "extracted")
            (writeFile ("work" :: q') t es) = extractedPart
            (writeFile ("work" :: q') t es) from rfl, ih]
        rfl
      · rw [if_neg hq, if_neg hq]
        exact ih

theorem extractedPart_mkdirParents (q' : List String) (fs : FS) :
    extractedPart (mkdirParents ("work" :: q') fs) = extractedPart fs := by
  unfold mkdirParents
  rw [extractedPart_append]
  rw [show extractedPart (List.map (fun pre => (pre, Node.dir))
      (List.filter (fun pre => !pathExistsB pre fs)
        (List.map (fun i => ("work" :: q').take (i + 1))
          (List.range ("work" :: q').length)))) = [] from ?_, List.append_nil]
  apply List.filter_eq_nil_iff.mpr
  intro e he
  rcases List.mem_map.mp he with ⟨pre, hpre, rfl⟩
  rcases List.mem_filter.mp hpre with ⟨hmem, -⟩
  rcases List.mem_map.mp hmem with ⟨i, -, rfl⟩
  simp [List.take_succ_cons]

theorem extractedPart_copytree (tmp : FS) :
    extractedPart (copytree ["extracted"] ["work"] tmp) = extractedPart tmp := by
  unfold copytree
  rw [extractedPart_append, extractedPart_append]
  rw [show extractedPart [(["work"], Node.dir)] = [] from rfl]
  rw [show extractedPart (List.map
      (fun e => (["work"] ++ e.1.drop (["extracted"] : Path).length, e.2))
      (rglob ["extracted"] tmp)) = [] from ?_]
  · simp
  · apply List.filter_eq_nil_iff.mpr
    intro e he
    rcases List.mem_map.mp he with ⟨e', -, rfl⟩
    simp

theorem fileRenameStep_frame (old new : String) (err : Path → Bool) (fs : FS)
    (src : Path) :
    extractedPart ((fileRenameStep old new err fs src).1) = extractedPart fs := by
  have hdl : (fileDst old new src).dropLast = "work" :: (src.drop 1).dropLast := by
    unfold fileDst
    rw [List.dropLast_concat]
    rfl
  have hmk : extractedPart (mkdirParents (fileDst old new src).dropLast fs)
      = extractedPart fs := by
    rw [hdl]
    exact extractedPart_mkdirParents _ _
  unfold fileRenameStep
  dsimp only
  split
  · exact hmk
  · split
    · exact hmk
    · rw [show (["work"] ++ src.drop 1 : Path) = "work" :: src.drop 1 from rfl]
      rw [show fileDst old new src
          = "work" :: ((src.drop 1).dropLast ++ [strReplace old new (name src)]) by
        unfold fileDst
        simp]
      rw [extractedPart_renamePath]
      exact hmk

theorem folderRenameStep_frame (old new : String) (err : Path → Bool) (fs : FS)
    (src : Path) (hlen : 2 ≤ src.length) :
    extractedPart ((folderRenameStep old new err fs src).1) = extractedPart fs := by
  have hrel : src.drop 1 ≠ [] := by
    intro h
    have := congrArg List.length h
    simp at this
    omega
  have hdst : folderDst old new src
      = "work" :: ((src.drop 1).dropLast ++ [strReplace old new (name src)]) := by
    unfold folderDst
    rw [show (["work"] ++ src.drop 1 : Path) = "work" :: src.drop 1 from rfl]
    rw [List.dropLast_cons_of_ne_nil hrel]
    rfl
  unfold folderRenameStep
  dsimp only
  split
  · rfl
  · split
    · rfl
    · rw [show (["work"] ++ src.drop 1 : Path) = "work" :: src.drop 1 from rfl, hdst]
      exact extractedPart_renamePath _ _ fs

theorem renamePhase_frame (step : FS → Path → FS × LogEntry) :
    ∀ (items : List Path) (fs : FS),
    (∀ fs' src, src ∈ items → extractedPart ((step fs' src).1) = extractedPart fs') →
    extractedPart ((renamePhase step items fs).1) = extractedPart fs := by
  intro items
  induction items with
  | nil => intro fs h; rfl
  | cons x xs ih =>
    intro fs h
    rw [renamePhase_cons]
    dsimp only
    rw [ih _ (fun fs' src hs => h fs' src (List.mem_cons_of_mem _ hs))]
    exact h fs x (List.mem_cons_self _ _)

theorem contentFold_frame (old new : String) (sfx : List String)
    (errW : Path → Bool) :
    ∀ (l : List (Path × Node)),
    (∀ e ∈ l, ∃ t, e.1 = "work" :: t) →
    ∀ fs0, extractedPart (l.foldl (contentWriteEffect old new sfx errW) fs0)
      = extractedPart fs0 := by
  intro l
  induction l with
  | nil => intro h fs0; rfl
  | cons e es ih =>
    intro h fs0
    rw [List.foldl_cons]
    rw [ih (fun e' he' => h e' (List.mem_cons_of_mem _ he'))]
    obtain ⟨t, ht⟩ := h e (List.mem_cons_self _ _)
    rcases e with ⟨q, node⟩
    cases node with
    | dir => rfl
    | file txt =>
      cases txt with
      | none => rfl
      | some s =>
        unfold contentWriteEffect
        dsimp only
        split
        · dsimp only at ht
          rw [ht]
          exact extractedPart_writeFile _ _ _
        · rfl

theorem contentPhase_frame (old new : String) (sfx : List String)
    (errW : Path → Bool) (fs : FS) :
    extractedPart ((contentPhase old new sfx errW fs).1) = extractedPart fs := by
  rw [contentPhase_spec]
  dsimp only
  apply contentFold_frame
  intro e he
  obtain ⟨-, hpre, -⟩ := mem_of_mem_rglob he
  obtain ⟨t, ht⟩ := hpre
  exact ⟨t, ht.symm⟩

/-! ### What the scan records about its candidates -/

theorem withName_ok {p : Path} {n : String} {dst : Path}
    (h : withName p n = .ok dst) : dst = p.dropLast ++ [n] := by
  unfold withName at h
  split at h
  · cases h
  · split at h
    · cases h
    · injection h with h
      exact h.symm

theorem scanContentPart_fileCands (old : String) (sfx : List String)
    (acc : ScanResult) (e : Path × Node) :
    (scanContentPart old sfx acc e).fileCands = acc.fileCands := by
  rcases e with ⟨p, node⟩
  cases node with
  | dir => rfl
  | file t =>
    unfold scanContentPart
    dsimp only
    split
    · cases t with
      | none => rfl
      | some txt =>
        dsimp only
        split <;> rfl
    · rfl

theorem scanContentPart_folderCands (old : String) (sfx : List String)
    (acc : ScanResult) (e : Path × Node) :
    (scanContentPart old sfx acc e).folderCands = acc.folderCands := by
  rcases e with ⟨p, node⟩
  cases node with
  | dir => rfl
  | file t =>
    unfold scanContentPart
    dsimp only
    split
    · cases t with
      | none => rfl
      | some txt =>
        dsimp only
        split <;> rfl
    · rfl

theorem scanStep_cands (old new : String) (sfx : List String) (acc : ScanResult)
    (e : Path × Node) (acc' : ScanResult)
    (h : scanStep old new sfx acc e = .ok acc') :
    ∀ sd ∈ acc'.fileCands ++ acc'.folderCands,
      sd ∈ acc.fileCands ++ acc.folderCands ∨
      (sd.1 = e.1 ∧ sd.2 = sd.1.dropLast ++ [strReplace old new (name sd.1)]) := by
  unfold scanStep at h
  cases hr : scanRenamePart old new acc e with
  | error u => rw [hr] at h; cases h
  | ok acc1 =>
    rw [hr] at h
    injection h with h
    intro sd hsd
    rw [← h, scanContentPart_fileCands, scanContentPart_folderCands] at hsd
    unfold scanRenamePart at hr
    split at hr
    · rcases e with ⟨p, node⟩
      cases node with
      | file t =>
        cases hw : withName p (strReplace old new (name p)) with
        | error u => rw [hw] at hr; cases hr
        | ok dst =>
          rw [hw] at hr
          injection hr with hr
          rw [← hr] at hsd
          dsimp only at hsd
          rcases List.mem_append.mp hsd with h1 | h2
          · rcases List.mem_append.mp h1 with h1a | h1b
            · exact Or.inl (List.mem_append.mpr (Or.inl h1a))
            · rcases List.mem_singleton.mp h1b with rfl
              refine Or.inr ⟨rfl, ?_⟩
              dsimp only
              exact withName_ok hw
          · exact Or.inl (List.mem_append.mpr (Or.inr h2))
      | dir =>
        cases hw : withName p (strReplace old new (name p)) with
        | error u => rw [hw] at hr; cases hr
        | ok dst =>
          rw [hw] at hr
          injection hr with hr
          rw [← hr] at hsd
          dsimp only at hsd
          rcases List.mem_append.mp hsd with h1 | h2
          · exact Or.inl (List.mem_append.mpr (Or.inl h1))
          · rcases List.mem_append.mp h2 with h2a | h2b
            · exact Or.inl (List.mem_append.mpr (Or.inr h2a))
            · rcases List.mem_singleton.mp h2b with rfl
              refine Or.inr ⟨rfl, ?_⟩
              dsimp only
              exact withName_ok hw
    · injection hr with hr
      rw [← hr] at hsd
      exact Or.inl hsd

theorem scanList_cands (old new : String) (sfx : List String) :
    ∀ (entries : List (Path × Node)) (acc r : ScanResult),
    scanList old new sfx entries acc = .ok r →
    ∀ sd ∈ r.fileCands ++ r.folderCands,
      sd ∈ acc.fileCands ++ acc.folderCands ∨
      ((∃ n, (sd.1, n) ∈ entries) ∧
        sd.2 = sd.1.dropLast ++ [strReplace old new (name sd.1)]) := by
  intro entries
  induction entries with
  | nil =>
    intro acc r h sd hsd
    injection h with h
    rw [← h] at hsd
    exact Or.inl hsd
  | cons e es ih =>
    intro acc r h sd hsd
    unfold scanList at h
    cases hstep : scanStep old new sfx acc e with
    | error u => rw [hstep] at h; cases h
    | ok acc' =>
      rw [hstep] at h
      rcases ih acc' r h sd hsd with hin | ⟨⟨n, hn⟩, heq⟩
      · rcases scanStep_cands old new sfx acc e acc' hstep sd hin with h1 | ⟨h2, h3⟩
        · exact Or.inl h1
        · refine Or.inr ⟨⟨e.2, ?_⟩, h3⟩
          rw [h2]
          exact List.mem_cons_self _ _
      · exact Or.inr ⟨⟨n, List.mem_cons_of_mem _ hn⟩, heq⟩

theorem scan_cands (old new : String) (sfx : List String) (entries : FS)
    (r : ScanResult) (h : scan old new sfx entries = .ok r) :
    ∀ sd ∈ r.fileCands ++ r.folderCands,
      (∃ n, (sd.1, n) ∈ entries) ∧
      sd.2 = sd.1.dropLast ++ [strReplace old new (name sd.1)] := by
  intro sd hsd
  rcases scanList_cands old new sfx entries ⟨[], [], []⟩ r h sd hsd with hin | hprop
  · cases hin
  · exact hprop

theorem filePhaseRun_frame (old new : String) (errF : Path → Bool) (doF : Bool)
    (cands : ScanResult) (fs0 : FS) :
    extractedPart ((filePhaseRun old new errF doF cands fs0).1) = extractedPart fs0 := by
  unfold filePhaseRun
  split
  · exact renamePhase_frame _ _ _ (fun fs' src _ => fileRenameStep_frame old new errF fs' src)
  · rfl

theorem folderPhaseRun_frame (old new : String) (errD : Path → Bool) (doD : Bool)
    (cands : ScanResult) (fs1 : FS)
    (hlen : ∀ p ∈ cands.folderCands.map Prod.fst, 2 ≤ p.length) :
    extractedPart ((folderPhaseRun old new errD doD cands fs1).1) = extractedPart fs1 := by
  unfold folderPhaseRun
  split
  · apply renamePhase_frame
    intro fs' src hs
    exact folderRenameStep_frame old new errD fs' src
      (hlen _ ((sortDeepestFirst_perm _).mem_iff.mp hs))
  · rfl

theorem contentPhaseRun_frame (old new : String) (sfx : List String)
    (errW : Path → Bool) (doC : Bool) (fs2 : FS) :
    extractedPart ((contentPhaseRun old new sfx errW doC fs2).1) = extractedPart fs2 := by
  unfold contentPhaseRun
  split
  · exact contentPhase_frame old new sfx errW fs2
  · rfl

/-- C8.  Frame property: whatever the parameters, oracles and input tree, a
run never renames, deletes or rewrites anything below the extracted
reference copy — the `extracted` entries of the temp dir (paths and nodes,
in order) are identical before and after the run; every mutation lands in
the `work` copy created by `copytree` before any change. -/
theorem extracted_tree_frame (prm : Params) (orc : Oracles) (tmp : FS) :
    extractedPart ((run prm orc tmp).fs) = extractedPart tmp := by
  unfold run
  split
  · rfl
  · cases hscan : scan prm.old prm.new prm.suffixes (rglob ["extracted"] tmp) with
    | error u => rfl
    | ok cands =>
      dsimp only
      split
      · show extractedPart ((applyOps prm.old prm.new prm.suffixes prm.doRenameFiles
          prm.doRenameFolders prm.doChangeContents orc cands
          (copytree ["extracted"] ["work"] tmp)).1) = extractedPart tmp
        have hlen : ∀ p ∈ cands.folderCands.map Prod.fst, 2 ≤ p.length := by
          intro p hp
          rcases List.mem_map.mp hp with ⟨sd, hsd, rfl⟩
          obtain ⟨⟨n, hn⟩, -⟩ := scan_cands prm.old prm.new prm.suffixes _ cands
            hscan sd (List.mem_append.mpr (Or.inr hsd))
          obtain ⟨-, hpre, hne⟩ := mem_of_mem_rglob hn
          obtain ⟨t, ht⟩ := hpre
          rcases t with _ | ⟨s, t'⟩
          · exact absurd (by simpa using ht.symm) hne
          · rw [← ht]
            simp
        rw [applyOps_fs, contentPhaseRun_frame, folderPhaseRun_frame _ _ _ _ _ _ hlen,
          filePhaseRun_frame, extractedPart_copytree]
      · rfl

/-! ### C6: destination-path derivation -/

/-- C6.  Destination derivation: a scan-time candidate's destination is the
source's parent followed by the source base name with every non-overlapping
occurrence of `old` replaced by `new` (first conjunct); the apply-time
destinations recomputed by both rename loops (`fileDst`, `folderDst`) equal
the parent of the source's working-copy path followed by that same replaced
base name (second conjunct). -/
theorem dest_derivation :
    (∀ (old new : String) (sfx : List String) (entries : FS) (r : ScanResult),
      scan old new sfx entries = .ok r →
      ∀ sd ∈ r.fileCands ++ r.folderCands,
        sd.2 = sd.1.dropLast ++ [strReplace old new (name sd.1)]) ∧
    (∀ (old new : String) (src : Path), 2 ≤ src.length →
      fileDst old new src
        = ("work" :: src.drop 1).dropLast ++ [strReplace old new (name src)] ∧
      folderDst old new src
        = ("work" :: src.drop 1).dropLast ++ [strReplace old new (name src)]) := by
  constructor
  · intro old new sfx entries r h sd hsd
    exact (scan_cands old new sfx entries r h sd hsd).2
  · intro old new src hlen
    have hrel : src.drop 1 ≠ [] := by
      intro h
      have := congrArg List.length h
      simp at this
      omega
    rw [List.dropLast_cons_of_ne_nil hrel]
    constructor
    · rfl
    · unfold folderDst
      rw [show (["work"] ++ src.drop 1 : Path) = "work" :: src.drop 1 from rfl,
        List.dropLast_cons_of_ne_nil hrel]

theorem dest_derivation_witness :
    (["extracted", "a_old.txt"], ["extracted", "a_new.txt"]).2
      = (["extracted", "a_old.txt"] : Path).dropLast
          ++ [strReplace "old" "new" (name ["extracted", "a_old.txt"])] :=
  dest_derivation.1 "old" "new" [] [(["extracted", "a_old.txt"], Node.file none)]
    ⟨[], [(["extracted", "a_old.txt"], ["extracted", "a_new.txt"])], []⟩
    (by decide) (["extracted", "a_old.txt"], ["extracted", "a_new.txt"]) (by decide)

/-! ### C9: scanner totality fails at invalid replacement names -/

/-- C9, counterexample.  The claim says the scan completes without error for
every tree, non-empty `old`, and `new` including the empty string.  It does
not: with `old = "old"`, `new = ""` and a file whose whole base name is
`old`, the replaced name is empty, `with_name` raises `ValueError`, and the
scan aborts. -/
theorem scan_not_total_counterexample :
    scan "old" "" [".txt"] [(["extracted", "old"], Node.file (some ""))]
      = .error () := by decide

theorem scanStep_ok (old new : String) (sfx : List String) (acc : ScanResult)
    (e : Path × Node) (h1 : e.1 ≠ [])
    (h2 : substrB old (name e.1) = true →
      (strReplace old new (name e.1) ≠ "" ∧ strReplace old new (name e.1) ≠ "." ∧
       (strReplace old new (name e.1)).toList.contains '/' = false)) :
    ∃ acc', scanStep old new sfx acc e = .ok acc' := by
  suffices h : ∃ acc1, scanRenamePart old new acc e = .ok acc1 by
    obtain ⟨acc1, hacc1⟩ := h
    unfold scanStep
    rw [hacc1]
    exact ⟨_, rfl⟩
  unfold scanRenamePart
  by_cases hsub : substrB old (name e.1) = true
  · rw [if_pos hsub]
    obtain ⟨hv1, hv2, hv3⟩ := h2 hsub
    have hw : withName e.1 (strReplace old new (name e.1))
        = .ok (e.1.dropLast ++ [strReplace old new (name e.1)]) := by
      unfold withName
      rw [if_neg h1, if_neg ?_]
      rintro (hc | hc | hc)
      · exact hv1 hc
      · exact hv2 hc
      · rw [hc] at hv3
        cases hv3
    cases he : e.2 with
    | file t => rw [hw]; exact ⟨_, rfl⟩
    | dir => rw [hw]; exact ⟨_, rfl⟩
  · rw [if_neg hsub]
    exact ⟨acc, rfl⟩

/-- C9, amended.  Scanner totality restricted to the inputs the `with_name`
validation accepts: for every tree whose entries have a base name, and every
`old`/`new` — `new` possibly empty — such that each matching entry's
replaced base name is non-empty, not `"."`, and free of the path separator,
the scan (a pure function of the tree: it performs no mutation) completes
without error, returning its three candidate lists. -/
theorem scan_total_amended (old new : String) (sfx : List String)
    (entries : FS) (hne : ∀ e ∈ entries, e.1 ≠ [])
    (hvalid : ∀ e ∈ entries, substrB old (name e.1) = true →
      (strReplace old new (name e.1) ≠ "" ∧ strReplace old new (name e.1) ≠ "." ∧
       (strReplace old new (name e.1)).toList.contains '/' = false)) :
    ∃ r, scan old new sfx entries = .ok r := by
  suffices h : ∀ (l : List (Path × Node)), (∀ e ∈ l, e.1 ≠ []) →
      (∀ e ∈ l, substrB old (name e.1) = true →
        (strReplace old new (name e.1) ≠ "" ∧ strReplace old new (name e.1) ≠ "." ∧
         (strReplace old new (name e.1)).toList.contains '/' = false)) →
      ∀ acc, ∃ r, scanList old new sfx l acc = .ok r by
    exact h entries hne hvalid ⟨[], [], []⟩
  intro l
  induction l with
  | nil => intro h1 h2 acc; exact ⟨acc, rfl⟩
  | cons e es ih =>
    intro h1 h2 acc
    obtain ⟨acc', hstep⟩ := scanStep_ok old new sfx acc e
      (h1 e (List.mem_cons_self _ _)) (h2 e (List.mem_cons_self _ _))
    obtain ⟨r, hr⟩ := ih (fun e' he' => h1 e' (List.mem_cons_of_mem _ he'))
      (fun e' he' => h2 e' (List.mem_cons_of_mem _ he')) acc'
    refine ⟨r, ?_⟩
    unfold scanList
    rw [hstep]
    exact hr

theorem scan_total_amended_witness :
    ∃ r, scan "old" "" [".txt"]
      [(["extracted", "a_old.txt"], Node.file (some "x")),
       (["extracted", "old_dir"], Node.dir)] = .ok r :=
  scan_total_amended "old" "" [".txt"]
    [(["extracted", "a_old.txt"], Node.file (some "x")),
     (["extracted", "old_dir"], Node.dir)]
    (by decide) (by decide)

/-! ### C10: MAX_FILE_LIST bounds only the preview -/

/-- C10.  `MAX_FILE_LIST` bounds only the diff preview: the preview shows at
most `MAX_FILE_LIST = 1000` files (first conjunct), while the apply loops are
unbounded — each rename loop logs one line per candidate however many there
are (second conjunct), the deepest-first sort keeps every candidate (third
conjunct), and the content pass logs one line for every matching file of the
re-scanned working tree with no truncation (fourth conjunct). -/
theorem max_file_list_preview_only :
    (∀ cands : List Path,
      (previewContentDiffs cands).length = min MAX_FILE_LIST cands.length) ∧
    (∀ (step : FS → Path → FS × LogEntry) (items : List Path) (fs : FS),
      ((renamePhase step items fs).2).length = items.length) ∧
    (∀ l : List Path, List.Perm (sortDeepestFirst l) l) ∧
    (∀ (old new : String) (sfx : List String) (errW : Path → Bool) (fs : FS),
      ((contentPhase old new sfx errW fs).2.2).map LogEntry.relOf
        = ((rglob ["work"] fs).filter (contentAttempt old sfx)).map
            (fun e => some (e.1.drop 1))) := by
  refine ⟨?_, renamePhase_length, sortDeepestFirst_perm, ?_⟩
  · intro cands
    exact List.length_take _ _
  · intro old new sfx errW fs
    rw [contentPhase_spec]
    dsimp only
    rw [List.map_map]
    apply List.map_congr_left
    intro e he
    show (contentLine errW e).relOf = some (e.1.drop 1)
    unfold contentLine
    split <;> rfl

end BulkReplace
